import Mathlib

/-!
Verification of the runtime type-identity (RTTI) mechanism of the repository.

The C++ source (`src/rtti/variadic-definition.cpp`) defines a class `RTTI`
holding an immutable class name and an immutable list of pointers to parent
descriptors, together with a recursive depth-first query
`derivesFrom` : identity check first, then short-circuit OR over the parents.

Shallow embedding: a descriptor graph is the list of descriptors in
construction order.  A descriptor is addressed by its index in that list
(indices play the role of object identity / pointer identity: two distinct
indices are two distinct descriptor instances, even when the stored data
agree).  Because the C++ constructor can only receive pointers to descriptors
that already exist, every parent of the node at index `i` has an index
strictly below `i`; the predicate `WF` records exactly this, and the
inductive `Constructed` describes the graphs reachable by a sequence of
constructor calls.

`derivesFrom` is the recursion of the source.  Lean needs a termination
argument, so the recursion is made explicit with a fuel parameter
(`derivesFromF`); on construction-ordered graphs a fuel of `a + 1` is enough
for a query starting at index `a`, since indices strictly decrease along
parent edges, and `derivesFromF` is proved independent of the fuel beyond
that bound.
-/

/-- A type descriptor: the data stored by the C++ `RTTI` object.
`className` embeds `m_className`, `parents` embeds `m_parents` as the list
of construction-order indices of the parent descriptors. -/
structure RTTI where
  className : String
  parents : List Nat
deriving DecidableEq, Repr

/-- `getClassName` of the source: returns the stored name verbatim. -/
def RTTI.getClassName (r : RTTI) : String :=
  r.className

/-- A descriptor graph: the descriptors in construction order. -/
def Graph : Type := List RTTI

instance : DecidableEq Graph := by
  unfold Graph
  infer_instance

/-- Look up the descriptor at index `a`. -/
def Graph.node (g : Graph) (a : Nat) : Option RTTI :=
  List.get? g a

/-- The length of the underlying list of a graph. -/
def Graph.size (g : Graph) : Nat :=
  List.length g

/-- The recursion of `RTTI::derivesFrom`, made explicit with a fuel
parameter: identity first, otherwise short-circuit OR of the recursive query
over the parents, false when no parent answers true. -/
def derivesFromF : Nat → Graph → Nat → Nat → Bool
  | 0, _, _, _ => false
  | fuel + 1, g, a, b =>
    if a = b then
      true
    else
      match g.node a with
      | none => false
      | some node => node.parents.any fun p => derivesFromF fuel g p b

/-- `RTTI::derivesFrom` on a construction-ordered graph: fuel `a + 1`
suffices because parent indices strictly decrease. -/
def derivesFrom (g : Graph) (a b : Nat) : Bool :=
  derivesFromF (a + 1) g a b

/-- The direct-parent edge relation of the descriptor graph. -/
def Edge (g : Graph) (a p : Nat) : Prop :=
  ∃ node, g.node a = some node ∧ p ∈ node.parents

/-- Reflexive-transitive closure of the direct-parent relation:
`b` is reachable from `a` by following zero or more parent edges. -/
inductive Reach (g : Graph) : Nat → Nat → Prop
  | refl (a : Nat) : Reach g a a
  | step {a p b : Nat} : Edge g a p → Reach g p b → Reach g a b

/-- Construction-order well-formedness: every parent reference points to a
previously constructed descriptor, i.e. to a strictly smaller index.  This
is the structural invariant the C++ constructor guarantees. -/
def WF (g : Graph) : Prop :=
  ∀ i node, g.node i = some node → ∀ p ∈ node.parents, p < i

/-- The graphs reachable by a sequence of constructor calls: each new
descriptor's parent list references only already-constructed descriptors. -/
inductive Constructed : Graph → Prop
  | nil : Constructed []
  | snoc {g : Graph} (node : RTTI) : Constructed g →
      (∀ p ∈ node.parents, p < Graph.size g) →
      Constructed (List.append g [node])

theorem edge_lt {g : Graph} (hg : WF g) {a p : Nat} (he : Edge g a p) :
    p < a := by
  obtain ⟨node, hn, hp⟩ := he
  exact hg a node hn p hp

theorem reach_le {g : Graph} (hg : WF g) {a b : Nat} (h : Reach g a b) :
    b ≤ a := by
  induction h with
  | refl a => exact Nat.le_refl a
  | step he _ ih => exact Nat.le_trans ih (Nat.le_of_lt (edge_lt hg he))

theorem reach_trans {g : Graph} {a b c : Nat} (h1 : Reach g a b)
    (h2 : Reach g b c) : Reach g a c := by
  induction h1 with
  | refl a => exact h2
  | step he _ ih => exact Reach.step he (ih h2)

theorem reach_cases {g : Graph} {a b : Nat} (h : Reach g a b) :
    a = b ∨ ∃ p, Edge g a p ∧ Reach g p b := by
  cases h with
  | refl => exact Or.inl rfl
  | step he hr => exact Or.inr ⟨_, he, hr⟩

theorem constructed_wf {g : Graph} (hg : Constructed g) : WF g := by
  induction hg with
  | nil =>
    intro i node hn
    simp [Graph.node] at hn
  | @snoc g0 node hc hp ih =>
    intro i nd hn p hmem
    simp only [Graph.node, List.append_eq] at hn
    rcases Nat.lt_trichotomy i g0.length with hlt | heq | hgt
    · rw [List.get?_append hlt] at hn
      exact ih i nd hn p hmem
    · subst heq
      rw [List.get?_concat_length] at hn
      cases Option.some.inj hn
      exact hp p hmem
    · exfalso
      have hlen := (List.get?_eq_some.mp hn).1
      simp only [List.length_append, List.length_cons, List.length_nil] at hlen
      omega

theorem derivesFromF_iff {g : Graph} (hg : WF g) :
    ∀ fuel a b, a < fuel → (derivesFromF fuel g a b = true ↔ Reach g a b) := by
  intro fuel
  induction fuel with
  | zero => intro a b ha; exact absurd ha (Nat.not_lt_zero a)
  | succ n ih =>
    intro a b ha
    by_cases hab : a = b
    · subst hab
      simp only [derivesFromF, if_pos rfl]
      exact ⟨fun _ => Reach.refl a, fun _ => rfl⟩
    · cases hga : g.node a with
      | none =>
        simp only [derivesFromF, if_neg hab, hga]
        constructor
        · intro h
          exact absurd h (by simp)
        · intro hr
          rcases reach_cases hr with h | ⟨p, he, _⟩
          · exact absurd h hab
          · obtain ⟨nd, hn, _⟩ := he
            rw [hga] at hn
            exact absurd hn (by simp)
      | some node =>
        simp only [derivesFromF, if_neg hab, hga, List.any_eq_true]
        constructor
        · rintro ⟨p, hp, hdp⟩
          have hpa : p < a := hg a node hga p hp
          exact Reach.step ⟨node, hga, hp⟩ ((ih p b (by omega)).mp hdp)
        · intro hr
          rcases reach_cases hr with h | ⟨p, he, hpr⟩
          · exact absurd h hab
          · obtain ⟨nd, hn, hp⟩ := he
            rw [hga] at hn
            cases Option.some.inj hn
            have hpa : p < a := hg a node hga p hp
            exact ⟨p, hp, (ih p b (by omega)).mpr hpr⟩

theorem derivesFrom_eq_true_iff_reach {g : Graph} (hg : WF g) (a b : Nat) :
    derivesFrom g a b = true ↔ Reach g a b :=
  derivesFromF_iff hg (a + 1) a b (Nat.lt_succ_self a)

theorem derivesFromF_stable {g : Graph} (hg : WF g) {fuel a b : Nat}
    (h : a < fuel) : derivesFromF fuel g a b = derivesFrom g a b := by
  have h1 := derivesFromF_iff hg fuel a b h
  have h2 := derivesFrom_eq_true_iff_reach hg a b
  cases hx : derivesFromF fuel g a b with
  | false =>
    cases hy : derivesFrom g a b with
    | false => rfl
    | true => exact absurd (h1.mpr (h2.mp hy)) (by rw [hx]; simp)
  | true => exact (h2.mpr (h1.mp hx)).symm

/-- The descriptor graph of `classlessRTTITest`, in construction order:
Vehicle, LandVehicle, WaterVehicle, AmphibiousVehicle, Fruit. -/
def classlessGraph : Graph :=
  [⟨"Vehicle", []⟩, ⟨"LandVehicle", [0]⟩, ⟨"WaterVehicle", [0]⟩,
   ⟨"AmphibiousVehicle", [1, 2]⟩, ⟨"Fruit", []⟩]

theorem constructed_classlessGraph : Constructed classlessGraph := by
  have h1 : Constructed [(⟨"Vehicle", []⟩ : RTTI)] :=
    Constructed.snoc ⟨"Vehicle", []⟩ Constructed.nil (by decide)
  have h2 : Constructed [(⟨"Vehicle", []⟩ : RTTI), ⟨"LandVehicle", [0]⟩] :=
    Constructed.snoc ⟨"LandVehicle", [0]⟩ h1 (by decide)
  have h3 : Constructed [(⟨"Vehicle", []⟩ : RTTI), ⟨"LandVehicle", [0]⟩,
      ⟨"WaterVehicle", [0]⟩] :=
    Constructed.snoc ⟨"WaterVehicle", [0]⟩ h2 (by decide)
  have h4 : Constructed [(⟨"Vehicle", []⟩ : RTTI), ⟨"LandVehicle", [0]⟩,
      ⟨"WaterVehicle", [0]⟩, ⟨"AmphibiousVehicle", [1, 2]⟩] :=
    Constructed.snoc ⟨"AmphibiousVehicle", [1, 2]⟩ h3 (by decide)
  exact Constructed.snoc ⟨"Fruit", []⟩ h4 (by decide)

theorem wf_classlessGraph : WF classlessGraph :=
  constructed_wf constructed_classlessGraph

/-- C1: on a construction-ordered (hence acyclic) descriptor graph,
`derivesFrom a b` is true iff `b` is reachable from `a` by zero or more
parent edges; in particular every descriptor derives from itself, and a
descriptor with an empty parent list derives from no descriptor other than
itself. -/
theorem derivesFrom_correct (g : Graph) (hg : WF g) :
    (∀ a b, derivesFrom g a b = true ↔ Reach g a b)
    ∧ (∀ a, derivesFrom g a a = true)
    ∧ (∀ a b node, g.node a = some node → node.parents = [] →
        derivesFrom g a b = true → a = b) := by
  refine ⟨fun a b => derivesFrom_eq_true_iff_reach hg a b, fun a => ?_, ?_⟩
  · exact (derivesFrom_eq_true_iff_reach hg a a).mpr (Reach.refl a)
  · intro a b node hn hpar hd
    rcases reach_cases ((derivesFrom_eq_true_iff_reach hg a b).mp hd) with
      h | ⟨p, he, _⟩
    · exact h
    · obtain ⟨nd, hn', hp⟩ := he
      rw [hn] at hn'
      cases Option.some.inj hn'
      rw [hpar] at hp
      simp at hp

theorem derivesFrom_correct_witness :
    WF classlessGraph ∧ derivesFrom classlessGraph 1 1 = true :=
  ⟨wf_classlessGraph, (derivesFrom_correct classlessGraph wf_classlessGraph).2.1 1⟩

/-- C2: on every constructible descriptor graph the recursion of
`derivesFrom` terminates with a definite boolean: its fuel-indexed unrolling
returns the same boolean for every sufficient unrolling depth, so the
unbounded recursion of the source is well-founded and total there. -/
theorem derivesFrom_total_terminating (g : Graph) (hg : Constructed g)
    (a b fuel : Nat) (hfuel : a < fuel) :
    derivesFromF fuel g a b = derivesFrom g a b :=
  derivesFromF_stable (constructed_wf hg) hfuel

theorem derivesFrom_total_terminating_witness :
    Constructed classlessGraph ∧ 3 < 10
    ∧ derivesFromF 10 classlessGraph 3 0 = derivesFrom classlessGraph 3 0 :=
  ⟨constructed_classlessGraph, by decide,
    derivesFrom_total_terminating classlessGraph constructed_classlessGraph
      3 0 10 (by decide)⟩

/-- C3: every descriptor graph reachable by a sequence of constructor calls
(parents drawn from already-constructed descriptors) has an acyclic parent
graph: no descriptor is reachable from itself by following one or more
parent edges. -/
theorem constructed_acyclic (g : Graph) (hg : Constructed g) :
    ∀ a p, Edge g a p → ¬ Reach g p a := by
  intro a p he hr
  have hw := constructed_wf hg
  have h1 : p < a := edge_lt hw he
  have h2 : a ≤ p := reach_le hw hr
  omega

theorem constructed_acyclic_witness :
    Constructed classlessGraph ∧ ¬ Reach classlessGraph 0 1 :=
  ⟨constructed_classlessGraph,
    constructed_acyclic classlessGraph constructed_classlessGraph 1 0
      ⟨⟨"LandVehicle", [0]⟩, rfl, by decide⟩⟩

/-- C4: `derivesFrom` is transitive on construction-ordered (acyclic)
descriptor graphs. -/
theorem derivesFrom_trans (g : Graph) (hg : WF g) (a b c : Nat)
    (hab : derivesFrom g a b = true) (hbc : derivesFrom g b c = true) :
    derivesFrom g a c = true :=
  (derivesFrom_eq_true_iff_reach hg a c).mpr
    (reach_trans ((derivesFrom_eq_true_iff_reach hg a b).mp hab)
      ((derivesFrom_eq_true_iff_reach hg b c).mp hbc))

theorem derivesFrom_trans_witness :
    WF classlessGraph ∧ derivesFrom classlessGraph 3 0 = true :=
  ⟨wf_classlessGraph,
    derivesFrom_trans classlessGraph wf_classlessGraph 3 1 0
      (by decide) (by decide)⟩

/-- C5: `derivesFrom` is antisymmetric on construction-ordered (acyclic)
descriptor graphs: mutual derivation forces identity, and equivalently a
strict derivation is never mutual. -/
theorem derivesFrom_antisymm (g : Graph) (hg : WF g) (a b : Nat) :
    (derivesFrom g a b = true → derivesFrom g b a = true → a = b)
    ∧ (derivesFrom g a b = true → a ≠ b → derivesFrom g b a = false) := by
  have key : derivesFrom g a b = true → derivesFrom g b a = true → a = b := by
    intro hab hba
    exact Nat.le_antisymm
      (reach_le hg ((derivesFrom_eq_true_iff_reach hg b a).mp hba))
      (reach_le hg ((derivesFrom_eq_true_iff_reach hg a b).mp hab))
  refine ⟨key, fun hab hne => ?_⟩
  cases hz : derivesFrom g b a with
  | false => rfl
  | true => exact absurd (key hab hz) hne

theorem derivesFrom_antisymm_witness :
    WF classlessGraph
    ∧ derivesFrom classlessGraph 1 0 = true
    ∧ derivesFrom classlessGraph 0 1 = false :=
  ⟨wf_classlessGraph, by decide,
    (derivesFrom_antisymm classlessGraph wf_classlessGraph 1 0).2
      (by decide) (by decide)⟩

/-- C6: diamond inheritance is handled correctly: with a root `r` with no
parents, descriptors `a` and `b` whose parent list is exactly `[r]`, and a
leaf `l` whose parent list is exactly `[a, b]`, the query `derivesFrom l r`
returns the plain boolean true. -/
theorem derivesFrom_diamond (g : Graph) (hg : WF g) (r a b l : Nat)
    (nr na nb nl : RTTI)
    (hr : g.node r = some nr) (hrp : nr.parents = [])
    (ha : g.node a = some na) (hap : na.parents = [r])
    (hb : g.node b = some nb) (hbp : nb.parents = [r])
    (hl : g.node l = some nl) (hlp : nl.parents = [a, b]) :
    derivesFrom g l r = true :=
  (derivesFrom_eq_true_iff_reach hg l r).mpr
    (Reach.step ⟨nl, hl, by rw [hlp]; simp⟩
      (Reach.step ⟨na, ha, by rw [hap]; simp⟩ (Reach.refl r)))

theorem derivesFrom_diamond_witness :
    WF classlessGraph ∧ derivesFrom classlessGraph 3 0 = true :=
  ⟨wf_classlessGraph,
    derivesFrom_diamond classlessGraph wf_classlessGraph 0 1 2 3
      ⟨"Vehicle", []⟩ ⟨"LandVehicle", [0]⟩ ⟨"WaterVehicle", [0]⟩
      ⟨"AmphibiousVehicle", [1, 2]⟩ rfl rfl rfl rfl rfl rfl rfl rfl⟩

/-- The descriptor graph of the statically bound demo classes, in static
initialization order: StaffMember, Librarian, Teacher, TeachingLibrarian,
Sailboat.  `RTTI_DEFINE(TeachingLibrarian, Teacher, Librarian)` lists
Teacher before Librarian. -/
def demoGraph : Graph :=
  [⟨"StaffMember", []⟩, ⟨"Librarian", [0]⟩, ⟨"Teacher", [0]⟩,
   ⟨"TeachingLibrarian", [2, 1]⟩, ⟨"Sailboat", []⟩]

/-- The demo classes declared with `RTTI_DECLARE`. -/
inductive DemoClass
  | staffMember
  | librarian
  | teacher
  | teachingLibrarian
  | sailboat
deriving DecidableEq

/-- The per-class static descriptor `ThisClass::typeInfo`, as its index in
`demoGraph`. -/
def DemoClass.typeInfo : DemoClass → Nat
  | .staffMember => 0
  | .librarian => 1
  | .teacher => 2
  | .teachingLibrarian => 3
  | .sailboat => 4

/-- A base-typed pointer to an instance: the static type of the pointer
together with the dynamic (most derived) class of the pointee, which is
fixed when the object is constructed. -/
structure Ptr where
  staticClass : DemoClass
  dynamicClass : DemoClass

/-- The virtual accessor `getTypeInfo`: dispatch goes to the override of
the pointee's dynamic class, never to the static type of the pointer. -/
def Ptr.getTypeInfo (x : Ptr) : Nat :=
  x.dynamicClass.typeInfo

/-- C7: the statically bound demo hierarchy behaves as specified: the
polymorphic accessor returns the most-derived descriptor even through a
base-typed pointer, and the six ancestry queries of the demo return the
stated booleans. -/
theorem demo_hierarchy_correct :
    (∀ s d : DemoClass, Ptr.getTypeInfo ⟨s, d⟩ = d.typeInfo)
    ∧ Ptr.getTypeInfo ⟨.staffMember, .librarian⟩ = DemoClass.typeInfo .librarian
    ∧ derivesFrom demoGraph (DemoClass.typeInfo .librarian)
        (DemoClass.typeInfo .staffMember) = true
    ∧ derivesFrom demoGraph (DemoClass.typeInfo .librarian)
        (DemoClass.typeInfo .sailboat) = false
    ∧ derivesFrom demoGraph (DemoClass.typeInfo .librarian)
        (DemoClass.typeInfo .teacher) = false
    ∧ derivesFrom demoGraph (DemoClass.typeInfo .teachingLibrarian)
        (DemoClass.typeInfo .librarian) = true
    ∧ derivesFrom demoGraph (DemoClass.typeInfo .teachingLibrarian)
        (DemoClass.typeInfo .staffMember) = true
    ∧ derivesFrom demoGraph (DemoClass.typeInfo .teachingLibrarian)
        (DemoClass.typeInfo .sailboat) = false :=
  ⟨fun _ _ => rfl, rfl, by decide, by decide, by decide, by decide,
    by decide, by decide⟩

/-- A memoized variant of the ancestry query, following the spec's
description of the allowed optimization: per query call it carries the
cache of descriptors already visited and fully explored without finding the
target, and skips re-traversing them.  A descriptor is recorded in the
cache once its whole exploration has come back false; a cache hit answers
false without re-traversal. -/
def derivesFromMemoF (fuel : Nat) (g : Graph) (b a : Nat)
    (vis : List Nat) : Bool × List Nat :=
  match fuel with
  | 0 => (false, vis)
  | fuel' + 1 =>
    if a ∈ vis then (false, vis)
    else if a = b then (true, vis)
    else
      match g.node a with
      | none => (false, a :: vis)
      | some node =>
        let r := node.parents.foldl
          (fun acc p =>
            if acc.1 then acc else derivesFromMemoF fuel' g b p acc.2)
          (false, vis)
        if r.1 then r else (false, a :: r.2)

/-- The memoized query: same fuel budget as `derivesFrom`, empty cache. -/
def derivesFromMemo (g : Graph) (a b : Nat) : Bool :=
  (derivesFromMemoF (a + 1) g b a []).1

/-- The step function of the parent fold of `derivesFromMemoF`. -/
def memoStep (fuel : Nat) (g : Graph) (b : Nat)
    (acc : Bool × List Nat) (p : Nat) : Bool × List Nat :=
  if acc.1 then acc else derivesFromMemoF fuel g b p acc.2

/-- Soundness of the cache: no recorded descriptor reaches `b`. -/
def CacheSound (g : Graph) (b : Nat) (vis : List Nat) : Prop :=
  ∀ v ∈ vis, ¬ Reach g v b

theorem derivesFromMemoF_succ (fuel : Nat) (g : Graph) (b a : Nat)
    (vis : List Nat) :
    derivesFromMemoF (fuel + 1) g b a vis =
      if a ∈ vis then (false, vis)
      else if a = b then (true, vis)
      else
        match g.node a with
        | none => (false, a :: vis)
        | some node =>
          if (List.foldl (memoStep fuel g b) (false, vis) node.parents).1 then
            List.foldl (memoStep fuel g b) (false, vis) node.parents
          else
            (false,
              a :: (List.foldl (memoStep fuel g b) (false, vis)
                node.parents).2) := rfl

theorem derivesFromMemoF_succ_none (fuel : Nat) (g : Graph) (b a : Nat)
    (vis : List Nat) (hmem : a ∉ vis) (hab : a ≠ b)
    (hga : g.node a = none) :
    derivesFromMemoF (fuel + 1) g b a vis = (false, a :: vis) := by
  rw [derivesFromMemoF_succ, if_neg hmem, if_neg hab, hga]

theorem derivesFromMemoF_succ_some (fuel : Nat) (g : Graph) (b a : Nat)
    (vis : List Nat) (node : RTTI) (hmem : a ∉ vis) (hab : a ≠ b)
    (hga : g.node a = some node) :
    derivesFromMemoF (fuel + 1) g b a vis =
      if (List.foldl (memoStep fuel g b) (false, vis) node.parents).1 then
        List.foldl (memoStep fuel g b) (false, vis) node.parents
      else
        (false,
          a :: (List.foldl (memoStep fuel g b) (false, vis)
            node.parents).2) := by
  rw [derivesFromMemoF_succ, if_neg hmem, if_neg hab, hga]

theorem memoStep_foldl_true (fuel : Nat) (g : Graph) (b : Nat) :
    ∀ ps (acc : Bool × List Nat), acc.1 = true →
      List.foldl (memoStep fuel g b) acc ps = acc := by
  intro ps
  induction ps with
  | nil => intro acc h; rfl
  | cons p ps ih =>
    intro acc h
    simp only [List.foldl_cons]
    rw [show memoStep fuel g b acc p = acc by simp [memoStep, h]]
    exact ih acc h

theorem memo_foldl_spec {g : Graph} (hg : WF g) (b fuel : Nat)
    (H : ∀ a vis, a < fuel → CacheSound g b vis →
      ((derivesFromMemoF fuel g b a vis).1 = true ↔ Reach g a b)
      ∧ ((derivesFromMemoF fuel g b a vis).1 = false →
          CacheSound g b (derivesFromMemoF fuel g b a vis).2)) :
    ∀ ps vis, (∀ p ∈ ps, p < fuel) → CacheSound g b vis →
      ((List.foldl (memoStep fuel g b) (false, vis) ps).1 = true
        ↔ ∃ p ∈ ps, Reach g p b)
      ∧ ((List.foldl (memoStep fuel g b) (false, vis) ps).1 = false →
          CacheSound g b
            (List.foldl (memoStep fuel g b) (false, vis) ps).2) := by
  intro ps
  induction ps with
  | nil =>
    intro vis hps hvis
    refine ⟨by simp, fun _ => hvis⟩
  | cons p ps ih =>
    intro vis hps hvis
    have hp : p < fuel := hps p (by simp)
    have hrest : ∀ q ∈ ps, q < fuel := fun q hq => hps q (by simp [hq])
    have hP := H p vis hp hvis
    simp only [List.foldl_cons]
    rw [show memoStep fuel g b (false, vis) p
        = derivesFromMemoF fuel g b p vis by simp [memoStep]]
    cases hr1 : (derivesFromMemoF fuel g b p vis).1 with
    | true =>
      rw [memoStep_foldl_true fuel g b ps (derivesFromMemoF fuel g b p vis)
        hr1]
      refine ⟨⟨fun _ => ⟨p, by simp, hP.1.mp hr1⟩, fun _ => hr1⟩, fun h => ?_⟩
      exact Bool.noConfusion (hr1.symm.trans h)
    | false =>
      have hcs : CacheSound g b (derivesFromMemoF fuel g b p vis).2 :=
        hP.2 hr1
      have hnp : ¬ Reach g p b := fun h =>
        Bool.noConfusion ((hP.1.mpr h).symm.trans hr1)
      have hpair : derivesFromMemoF fuel g b p vis
          = (false, (derivesFromMemoF fuel g b p vis).2) := by
        rw [← hr1]
      rw [hpair]
      have hih := ih (derivesFromMemoF fuel g b p vis).2 hrest hcs
      refine ⟨?_, hih.2⟩
      rw [hih.1]
      constructor
      · rintro ⟨q, hq, hqr⟩
        exact ⟨q, by simp [hq], hqr⟩
      · rintro ⟨q, hq, hqr⟩
        rcases List.mem_cons.mp hq with rfl | hq'
        · exact absurd hqr hnp
        · exact ⟨q, hq', hqr⟩

theorem derivesFromMemoF_spec {g : Graph} (hg : WF g) (b : Nat) :
    ∀ fuel a vis, a < fuel → CacheSound g b vis →
      ((derivesFromMemoF fuel g b a vis).1 = true ↔ Reach g a b)
      ∧ ((derivesFromMemoF fuel g b a vis).1 = false →
          CacheSound g b (derivesFromMemoF fuel g b a vis).2) := by
  intro fuel
  induction fuel with
  | zero => intro a vis ha; exact absurd ha (Nat.not_lt_zero a)
  | succ n ih =>
    intro a vis ha hvis
    by_cases hmem : a ∈ vis
    · rw [derivesFromMemoF_succ, if_pos hmem]
      exact ⟨⟨fun h => Bool.noConfusion h, fun h => absurd h (hvis a hmem)⟩,
        fun _ => hvis⟩
    · by_cases hab : a = b
      · subst hab
        rw [derivesFromMemoF_succ, if_neg hmem, if_pos rfl]
        exact ⟨⟨fun _ => Reach.refl a, fun _ => rfl⟩,
          fun h => Bool.noConfusion h⟩
      · cases hga : g.node a with
        | none =>
          rw [derivesFromMemoF_succ_none n g b a vis hmem hab hga]
          have hnr : ¬ Reach g a b := fun hr => by
            rcases reach_cases hr with h | ⟨p, hep, _⟩
            · exact hab h
            · obtain ⟨nd, hn, _⟩ := hep
              rw [hga] at hn
              exact Option.noConfusion hn
          refine ⟨⟨fun h => Bool.noConfusion h, fun h => absurd h hnr⟩,
            fun _ => ?_⟩
          intro v hv
          rcases List.mem_cons.mp hv with rfl | hv'
          · exact hnr
          · exact hvis v hv'
        | some node =>
          rw [derivesFromMemoF_succ_some n g b a vis node hmem hab hga]
          have hps : ∀ p ∈ node.parents, p < n := fun p hp => by
            have := hg a node hga p hp
            omega
          have hfold := memo_foldl_spec hg b n ih node.parents vis hps hvis
          split
          next h =>
            refine ⟨⟨fun _ => ?_, fun _ => h⟩, fun hcontra => ?_⟩
            · obtain ⟨p, hp, hrp⟩ := hfold.1.mp h
              exact Reach.step ⟨node, hga, hp⟩ hrp
            · exact Bool.noConfusion (h.symm.trans hcontra)
          next h =>
            have hfalse : (List.foldl (memoStep n g b) (false, vis)
                node.parents).1 = false := by
              cases hx : (List.foldl (memoStep n g b) (false, vis)
                  node.parents).1 with
              | false => rfl
              | true => exact absurd hx h
            have hnr : ¬ Reach g a b := fun hr => by
              rcases reach_cases hr with heq | ⟨p, hep, hrp⟩
              · exact hab heq
              · obtain ⟨nd, hn, hpmem⟩ := hep
                rw [hga] at hn
                cases Option.some.inj hn
                exact Bool.noConfusion
                  ((hfold.1.mpr ⟨p, hpmem, hrp⟩).symm.trans hfalse)
            refine ⟨⟨fun hx => Bool.noConfusion hx, fun hr => absurd hr hnr⟩,
              fun _ => ?_⟩
            intro v hv
            rcases List.mem_cons.mp hv with rfl | hv'
            · exact hnr
            · exact hfold.2 hfalse v hv'

/-- C8: the memoized ancestry query is extensionally equal to the naive
depth-first `derivesFrom`: on every construction-ordered (acyclic) graph
and every pair of descriptors both return the same boolean. -/
theorem derivesFromMemo_eq_derivesFrom (g : Graph) (hg : WF g) (a b : Nat) :
    derivesFromMemo g a b = derivesFrom g a b := by
  have h1 := (derivesFromMemoF_spec hg b (a + 1) a [] (Nat.lt_succ_self a)
    (fun v hv => absurd hv (List.not_mem_nil v))).1
  have h2 := derivesFrom_eq_true_iff_reach hg a b
  unfold derivesFromMemo
  cases hx : (derivesFromMemoF (a + 1) g b a []).1 with
  | false =>
    cases hy : derivesFrom g a b with
    | false => rfl
    | true => exact absurd (h1.mpr (h2.mp hy)) (by rw [hx]; simp)
  | true => exact (h2.mpr (h1.mp hx)).symm

theorem derivesFromMemo_eq_derivesFrom_witness :
    WF classlessGraph
    ∧ derivesFromMemo classlessGraph 3 0 = derivesFrom classlessGraph 3 0 :=
  ⟨wf_classlessGraph,
    derivesFromMemo_eq_derivesFrom classlessGraph wf_classlessGraph 3 0⟩

theorem derivesFromF_succ_some (fuel : Nat) (g : Graph) (a b : Nat)
    (node : RTTI) (hab : a ≠ b) (hga : g.node a = some node) :
    derivesFromF (fuel + 1) g a b
      = node.parents.any fun p => derivesFromF fuel g p b := by
  simp only [derivesFromF, if_neg hab, hga]

theorem derivesFrom_no_parents {g : Graph} {a b : Nat} {node : RTTI}
    (ha : g.node a = some node) (hpar : node.parents = []) (hab : a ≠ b) :
    derivesFrom g a b = false := by
  unfold derivesFrom
  rw [derivesFromF_succ_some a g a b node hab ha, hpar]
  rfl

/-- Two descriptors at distinct indices sharing the name "X". -/
def twinGraph : Graph := [⟨"X", []⟩, ⟨"X", []⟩]

/-- C9: type identity is instance identity, never name equality: two
distinct descriptor instances with equal name strings and empty parent
lists derive from neither one another. -/
theorem name_equality_not_identity (g : Graph) (i j : Nat) (ni nj : RTTI)
    (hi : g.node i = some ni) (hj : g.node j = some nj)
    (hname : ni.className = nj.className)
    (hpi : ni.parents = []) (hpj : nj.parents = []) (hij : i ≠ j) :
    derivesFrom g i j = false ∧ derivesFrom g j i = false :=
  ⟨derivesFrom_no_parents hi hpi hij,
    derivesFrom_no_parents hj hpj (Ne.symm hij)⟩

theorem name_equality_not_identity_witness :
    Graph.node twinGraph 0 = some ⟨"X", []⟩
    ∧ Graph.node twinGraph 1 = some ⟨"X", []⟩
    ∧ derivesFrom twinGraph 0 1 = false
    ∧ derivesFrom twinGraph 1 0 = false := by
  have h := name_equality_not_identity twinGraph 0 1 ⟨"X", []⟩ ⟨"X", []⟩
    rfl rfl rfl rfl rfl (by decide)
  exact ⟨rfl, rfl, h.1, h.2⟩

theorem derivesFromF_parents_congr :
    ∀ fuel (g g' : Graph),
      List.map RTTI.parents g = List.map RTTI.parents g' →
      ∀ a b, derivesFromF fuel g a b = derivesFromF fuel g' a b := by
  intro fuel
  induction fuel with
  | zero => intro g g' h a b; rfl
  | succ n ih =>
    intro g g' h a b
    by_cases hab : a = b
    · subst hab
      simp [derivesFromF]
    · have hnode : Option.map RTTI.parents (g.node a)
          = Option.map RTTI.parents (g'.node a) := by
        simp only [Graph.node, ← List.get?_map, h]
      cases hga : g.node a with
      | none =>
        rw [hga] at hnode
        cases hga' : g'.node a with
        | none =>
          simp [derivesFromF, if_neg hab, hga, hga']
        | some nd' =>
          rw [hga'] at hnode
          exact Option.noConfusion hnode
      | some nd =>
        rw [hga] at hnode
        cases hga' : g'.node a with
        | none =>
          rw [hga'] at hnode
          exact Option.noConfusion hnode
        | some nd' =>
          rw [hga'] at hnode
          have hpar : nd.parents = nd'.parents := Option.some.inj hnode
          rw [derivesFromF_succ_some n g a b nd hab hga,
            derivesFromF_succ_some n g' a b nd' hab hga', hpar]
          have hfun : (fun p => derivesFromF n g p b)
              = fun p => derivesFromF n g' p b :=
            funext fun p => ih g g' h p b
          rw [hfun]

/-- Two-node graph whose names are both the empty string. -/
def namelessPair : Graph := [⟨"", []⟩, ⟨"", [0]⟩]

/-- Two-node graph with ordinary names and the same parent structure as
`namelessPair`. -/
def namedPair : Graph := [⟨"Vehicle", []⟩, ⟨"LandVehicle", [0]⟩]

/-- C10: constructing a descriptor with the empty string as its name never
fails: the constructor is total for any name (it is a total Lean function),
`getClassName` returns the empty string verbatim, and `derivesFrom` never
inspects names — on any two graphs whose descriptors carry the same parent
lists position by position, every query returns the same boolean. -/
theorem empty_name_harmless :
    (∀ parents : List Nat, (RTTI.mk "" parents).getClassName = "")
    ∧ (∀ g g' : Graph,
        List.map RTTI.parents g = List.map RTTI.parents g' →
        ∀ a b, derivesFrom g a b = derivesFrom g' a b) :=
  ⟨fun _ => rfl,
    fun g g' h a b => derivesFromF_parents_congr (a + 1) g g' h a b⟩

theorem empty_name_harmless_witness :
    (RTTI.mk "" [0]).getClassName = ""
    ∧ List.map RTTI.parents namelessPair = List.map RTTI.parents namedPair
    ∧ derivesFrom namelessPair 1 0 = derivesFrom namedPair 1 0 :=
  ⟨empty_name_harmless.1 [0], by decide,
    empty_name_harmless.2 namelessPair namedPair (by decide) 1 0⟩
